import Mathlib

/- Verification of the Translator codec framework.

   Modelling conventions (shallow embedding of the Python source):
   * Python strings and lazily produced character sequences are both
     modelled as `List Char` (generators are materialised lists).
   * Python exceptions are modelled by `Except TransError`.
   * Python `dict` construction (later duplicate keys overwrite earlier
     ones, insertion order kept) is modelled by `dictOf`.
   * The framing regex `start.*end` is modelled with literal-marker
     greedy semantics whose `.*` gap never spans a newline (Python `.`
     without DOTALL does not match a newline).  The source interpolates
     the markers into the pattern unescaped, so the model is faithful
     only for markers free of regex metacharacters (`regexSafe` below);
     the framing theorems carry that as an explicit hypothesis.
   * Python while-loops on shrinking integers are modelled with explicit
     fuel equal to the starting value, which suffices for base >= 2. -/

deriving instance DecidableEq for Except

namespace Translator

/-- Error kinds raised by the translators (modelling Python exceptions:
ValueError with an invalid-input message, ValueError for an out-of-range
code point, ValueError from `digits.index`, KeyError from a dict lookup,
IndexError from `num[0]` on an empty string, RuntimeError from an empty
builder, ValueError "No message found!", and the two malformed-frame
ValueErrors of `decodeCandidate`). -/
inductive TransError where
  | invalidInput (got : String)
  | outOfRange (got : Int)
  | invalidDigit (got : Char)
  | keyNotFound
  | indexError
  | buildError
  | notFound
  | malformedFrameStart
  | malformedFrameEnd
  deriving DecidableEq

/-- `UnicodeCharacterTranslator.encode`: the input must be exactly one
character (otherwise `ValueError`), and a single character maps to its
code point (`ord`). -/
def UnicodeCharacterTranslator.encode : List Char → Except TransError Int
  | [c] => .ok (c.toNat : Int)
  | s => .error (.invalidInput (String.mk s))

/-- `UnicodeCharacterTranslator.decode`: the input must lie in `[0, 255]`
(otherwise `ValueError`), and maps to the character with that code point
(`chr`). -/
def UnicodeCharacterTranslator.decode (number : Int) : Except TransError Char :=
  if 0 ≤ number ∧ number ≤ 255 then .ok (Char.ofNat number.toNat)
  else .error (.outOfRange number)

/-- Configuration of `Base10ToBaseNTranslator`: base, digit alphabet and
padding (the constructor's checks `base >= 2` and `len(digits) >= base`
appear as hypotheses of the theorems below). -/
structure Base10ToBaseNTranslator where
  base : Nat
  digits : List Char
  padding : Nat

/-- The division loop of `Base10ToBaseNTranslator.encode`
(`while decimal: digits.append(self.digits[decimal % self.base]);
decimal //= self.base`), least-significant digit first.  The first
argument is fuel; fuel `m` suffices for value `m` whenever `base >= 2`. -/
def Base10ToBaseNTranslator.encodeLoop (t : Base10ToBaseNTranslator) : Nat → Nat → List Char
  | _, 0 => []
  | 0, _ + 1 => []
  | fuel + 1, m + 1 => t.digits.getD ((m + 1) % t.base) ' ' :: t.encodeLoop fuel ((m + 1) / t.base)

/-- `Base10ToBaseNTranslator.encode`: `0` returns the literal string `"0"`;
otherwise run the division loop on the absolute value, append `'-'` when
the input was negative, append copies of `digits[0]` until the list
reaches `padding` entries, and reverse. -/
def Base10ToBaseNTranslator.encode (t : Base10ToBaseNTranslator) (decimal : Int) : List Char :=
  if decimal = 0 then ['0']
  else
    let ds := t.encodeLoop decimal.natAbs decimal.natAbs
    let ds1 := if decimal < 0 then ds ++ ['-'] else ds
    let ds2 := ds1 ++ List.replicate (t.padding - ds1.length) (t.digits.getD 0 ' ')
    ds2.reverse

/-- Index of the first occurrence of a character in a list (Python
`str.index` without the exception). -/
def listIndex? (c : Char) : List Char → Option Nat
  | [] => none
  | d :: rest => if d = c then some 0 else (listIndex? c rest).map (· + 1)

/-- `self.digits.index(digit)` of `Base10ToBaseNTranslator.decode`: index of
the first occurrence, `ValueError` when the digit is absent. -/
def Base10ToBaseNTranslator.digitIndex (t : Base10ToBaseNTranslator) (digit : Char) :
    Except TransError Nat :=
  match listIndex? digit t.digits with
  | some idx => .ok idx
  | none => .error (.invalidDigit digit)

/-- The accumulation loop of `Base10ToBaseNTranslator.decode`
(`for (i, digit) in enumerate(num[::-1]): decimal += idx * base ** i`),
processed least-significant digit first. -/
def Base10ToBaseNTranslator.decodeSum (t : Base10ToBaseNTranslator) :
    List Char → Nat → Except TransError Nat
  | [], _ => .ok 0
  | digit :: rest, i =>
    match t.digitIndex digit with
    | .error e => .error e
    | .ok idx =>
      match t.decodeSum rest (i + 1) with
      | .error e => .error e
      | .ok tail => .ok (idx * t.base ^ i + tail)

/-- `Base10ToBaseNTranslator.decode`: `num[0]` raises IndexError on the
empty string; a leading `'-'` is stripped and marks negation; the
remaining digits are summed as `index * base ^ position` from the
least-significant end. -/
def Base10ToBaseNTranslator.decode (t : Base10ToBaseNTranslator) (num : List Char) :
    Except TransError Int :=
  match num with
  | [] => .error .indexError
  | c :: rest =>
    if c = '-' then
      match t.decodeSum rest.reverse 0 with
      | .error e => .error e
      | .ok v => .ok (-(v : Int))
    else
      match t.decodeSum (c :: rest).reverse 0 with
      | .error e => .error e
      | .ok v => .ok ((v : Int))

/-- Sequential error propagation (a Python call that lets an exception
from its argument escape unchanged). -/
def exBind (r : Except TransError α) (f : α → Except TransError β) : Except TransError β :=
  match r with
  | .error e => .error e
  | .ok v => f v

/-- Monadic map over a list, first failure aborts: models consuming a
generator that applies a fallible translator to each element in order. -/
def mapME (f : α → Except TransError β) : List α → Except TransError (List β)
  | [] => .ok []
  | a :: l =>
    match f a with
    | .error e => .error e
    | .ok b =>
      match mapME f l with
      | .error e => .error e
      | .ok bs => .ok (b :: bs)

/-- One Python `dict` insertion: a duplicate key overwrites its value in
place, a fresh key is appended (insertion order preserved). -/
def dictInsert (d : List (α × β)) (k : α) (v : β) [DecidableEq α] : List (α × β) :=
  if d.any (fun p => p.1 = k) then d.map (fun p => if p.1 = k then (k, v) else p)
  else d ++ [(k, v)]

/-- A Python `dict` built from a sequence of key-value pairs (as a dict
comprehension does): later duplicate keys overwrite earlier ones. -/
def dictOf [DecidableEq α] (ps : List (α × β)) : List (α × β) :=
  ps.foldl (fun d p => dictInsert d p.1 p.2) []

/-- Python `d[k]` lookup on the dict model. -/
def dictGet? [DecidableEq α] (d : List (α × β)) (k : α) : Option β :=
  (d.find? (fun p => p.1 = k)).map (fun p => p.2)

/-- `StringReplacementTranslator`: configured by a charset dict; the
inverse dict flips each key-value pair of the (already deduplicated)
forward dict. -/
structure StringReplacementTranslator (α β : Type) [DecidableEq α] [DecidableEq β] where
  charset : List (α × β)

/-- The derived `charset_inv` dict: `\x7bv: k for (k, v) in charset.items()\x7d`. -/
def StringReplacementTranslator.charset_inv [DecidableEq α] [DecidableEq β]
    (t : StringReplacementTranslator α β) : List (β × α) :=
  dictOf ((dictOf t.charset).map (fun p => (p.2, p.1)))

/-- `StringReplacementTranslator.encode`: dict lookup, KeyError when absent. -/
def StringReplacementTranslator.encode [DecidableEq α] [DecidableEq β]
    (t : StringReplacementTranslator α β) (obj : α) : Except TransError β :=
  match dictGet? (dictOf t.charset) obj with
  | some v => .ok v
  | none => .error .keyNotFound

/-- `StringReplacementTranslator.decode`: lookup in the precomputed inverse
dict, KeyError when absent. -/
def StringReplacementTranslator.decode [DecidableEq α] [DecidableEq β]
    (t : StringReplacementTranslator α β) (obj : β) : Except TransError α :=
  match dictGet? t.charset_inv obj with
  | some v => .ok v
  | none => .error .keyNotFound

/-- A translator as the chaining combinator and the builder see it: a pair
of fallible `encode`/`decode` operations over one value universe. -/
structure PTranslator (α : Type) where
  encode : α → Except TransError α
  decode : α → Except TransError α

/-- `ChainedTranslator`: `encode` applies `t1.encode` then `t2.encode`,
`decode` applies `t2.decode` then `t1.decode`. -/
def ChainedTranslator (t1 t2 : PTranslator α) : PTranslator α where
  encode obj := exBind (t1.encode obj) t2.encode
  decode obj := exBind (t2.decode obj) t1.decode

/-- `ChainTranslatorBuilder.build` applied to the accumulated list of
translators: RuntimeError when empty, the sole translator unchanged when a
singleton, otherwise a left fold of pairwise `ChainedTranslator`s. -/
def ChainTranslatorBuilder.build (translators : List (PTranslator α)) :
    Except TransError (PTranslator α) :=
  match translators with
  | [] => .error .buildError
  | [t] => .ok t
  | t1 :: t2 :: rest => .ok (rest.foldl (fun T t => ChainedTranslator T t) (ChainedTranslator t1 t2))

/-- Configuration of `EmbeddedMessageTranslator`: the literal start and end
marker sequences. -/
structure EmbeddedMessageTranslator where
  start_seq : List Char
  end_seq : List Char

/-- `EmbeddedMessageTranslator.encode`: the start marker, the raw message
and the end marker concatenated verbatim. -/
def EmbeddedMessageTranslator.encode (t : EmbeddedMessageTranslator) (rawMsg : List Char) :
    List Char :=
  t.start_seq ++ rawMsg ++ t.end_seq

/-- Whether the pattern occurs in `s` starting at position `k`. -/
def occAtB (pat s : List Char) (k : Nat) : Bool :=
  (s.drop k).take pat.length == pat

/-- Whether Python's `.*` (no DOTALL flag) can match this gap: `.` matches
any character except a newline. -/
def dotGapB (gap : List Char) : Bool :=
  gap.all (fun c => ! (c == '\n'))

/-- The regex metacharacters of Python `re`.  The source builds its
pattern as `f"\x7bstart_seq\x7d.*\x7bend_seq\x7d"` without escaping, so a
marker containing one of these is interpreted as regex syntax (or raises
`re.error`); the framing model is faithful only for markers avoiding
them. -/
def regexMetachars : List Char :=
  ['.', '^', '$', '*', '+', '?', '\x7b', '\x7d', '[', ']', '\\', '|', '(', ')']

/-- A marker that the compiled pattern treats as a literal string. -/
def regexSafe (pat : List Char) : Prop :=
  ∀ c ∈ pat, c ∉ regexMetachars

instance (pat : List Char) : Decidable (regexSafe pat) := by
  unfold regexSafe
  infer_instance

/-- First position in `[start, start + fuel)` satisfying `p`
(the forward scan of `re.finditer`). -/
def findFirstIdx (p : Nat → Bool) : Nat → Nat → Option Nat
  | _, 0 => none
  | start, fuel + 1 => if p start then some start else findFirstIdx p (start + 1) fuel

/-- Largest position in `[0, j]` satisfying `p` (the greedy backtracking
scan of `.*`). -/
def findLastIdx (p : Nat → Bool) : Nat → Option Nat
  | 0 => if p 0 then some 0 else none
  | j + 1 => if p (j + 1) then some (j + 1) else findLastIdx p j

/-- Greedy extent of a regex match of `start.*end` beginning at `i`: the
largest end position `j <= s.length` such that the end marker occurs
ending at `j`, the gap fits `start` and `end` without overlap, and the
gap — matched by `.*` — contains no newline. -/
def EmbeddedMessageTranslator.matchEnd (t : EmbeddedMessageTranslator) (s : List Char)
    (i : Nat) : Option Nat :=
  findLastIdx
    (fun j => decide (i + t.start_seq.length + t.end_seq.length ≤ j) &&
      occAtB t.end_seq s (j - t.end_seq.length) &&
      dotGapB ((s.drop (i + t.start_seq.length)).take
        (j - t.end_seq.length - (i + t.start_seq.length))))
    s.length

/-- Position of the first (leftmost) match of the compiled pattern
`start.*end` in the carrier, as `finditer` yields it. -/
def EmbeddedMessageTranslator.findStart (t : EmbeddedMessageTranslator) (s : List Char) :
    Option Nat :=
  findFirstIdx (fun i => occAtB t.start_seq s i && (t.matchEnd s i).isSome) 0 (s.length + 1)

/-- `EmbeddedMessageTranslator.decodeCandidate`: verify the candidate
genuinely starts and ends with the markers (ValueError naming the failing
boundary otherwise), then strip them by slicing. -/
def EmbeddedMessageTranslator.decodeCandidate (t : EmbeddedMessageTranslator)
    (embeddedMsg : List Char) : Except TransError (List Char) :=
  if ! t.start_seq.isPrefixOf embeddedMsg then .error .malformedFrameStart
  else if ! t.end_seq.isSuffixOf embeddedMsg then .error .malformedFrameEnd
  else .ok ((embeddedMsg.drop t.start_seq.length).take
      (embeddedMsg.length - t.end_seq.length - t.start_seq.length))

/-- `EmbeddedMessageTranslator.decode`: take the first match of
`start.*end` in the carrier and strip it via `decodeCandidate`;
ValueError "No message found!" when there is no match. -/
def EmbeddedMessageTranslator.decode (t : EmbeddedMessageTranslator) (text : List Char) :
    Except TransError (List Char) :=
  match t.findStart text with
  | none => .error .notFound
  | some i =>
    match t.matchEnd text i with
    | none => .error .notFound
    | some j => t.decodeCandidate ((text.drop i).take (j - i))

/-- A full match of the pattern `start.*end` in `s`: the start marker
occurs at `i`, the end marker occurs ending at `j`, the two do not
overlap, and the gap between them contains no newline (Python `.` does
not match a newline). -/
def EmbeddedMessageTranslator.MatchAt (t : EmbeddedMessageTranslator) (s : List Char)
    (i j : Nat) : Prop :=
  i ≤ s.length ∧ occAtB t.start_seq s i = true ∧
    i + t.start_seq.length + t.end_seq.length ≤ j ∧ j ≤ s.length ∧
    occAtB t.end_seq s (j - t.end_seq.length) = true ∧
    dotGapB ((s.drop (i + t.start_seq.length)).take
      (j - t.end_seq.length - (i + t.start_seq.length))) = true

/-- Sequential application of the `encode`s of a list of translators, in
order, first failure aborting. -/
def runEncodes (ts : List (PTranslator α)) (x : α) : Except TransError α :=
  ts.foldl (fun r t => exBind r t.encode) (.ok x)

/-- Sequential application of the `decode`s of a list of translators, in
reverse order, first failure aborting. -/
def runDecodes (ts : List (PTranslator α)) (x : α) : Except TransError α :=
  ts.reverse.foldl (fun r t => exBind r t.decode) (.ok x)

/-- First position at which `sep` occurs as a contiguous block of `s`
(Python `str.find` as used by `str.split`). -/
def firstOcc? (sep s : List Char) : Option Nat :=
  findFirstIdx (fun i => sep.isPrefixOf (s.drop i)) 0 (s.length + 1)

/-- The scan of Python `str.split` with separator `c :: cs`: cut at each
leftmost occurrence of the separator.  Fuel `s.length` always suffices
because every step consumes at least one character. -/
def listSplitOnF (c : Char) (cs : List Char) : Nat → List Char → List (List Char)
  | 0, s => [s]
  | fuel + 1, s =>
    match firstOcc? (c :: cs) s with
    | none => [s]
    | some i => s.take i :: listSplitOnF c cs fuel (s.drop (i + (cs.length + 1)))

/-- Python `s.split(sep)`: ValueError on the empty separator, otherwise
split at each leftmost occurrence. -/
def pySplit (sep s : List Char) : Except TransError (List (List Char)) :=
  match sep with
  | [] => .error (.invalidInput "empty separator")
  | c :: cs => .ok (listSplitOnF c cs s.length s)

/-- `string.digits + string.ascii_letters`. -/
def base62 : List Char :=
  "0123456789abcdefghijklmnopqrstuvwxyzABCDEFGHIJKLMNOPQRSTUVWXYZ".toList

/-- The canonical digit alphabet of `CharsetTranslatorBuilder.build`:
digits and ASCII letters, extended with `chr(i)` for
`i in range(len(digits), len(charset))`. -/
def canonicalDigits (n : Nat) : List Char :=
  base62 ++ ((List.range n).drop 62).map (fun i => Char.ofNat i)

/-- The `replacement` dict comprehension of `CharsetTranslatorBuilder.build`:
`\x7bdigits[i]: charset[i] for i in range(0, len(charset))\x7d` (as its
pair sequence; `dictOf` applies the dict overwrite semantics). -/
def replacementPairs (charset : List Char) : List (Char × Char) :=
  (List.range charset.length).map
    (fun i => ((canonicalDigits charset.length).getD i ' ', charset.getD i ' '))

/-- Configuration handed to `CharsetTranslatorBuilder` via its setters. -/
structure CharsetTranslatorBuilder where
  charset : List Char
  separator : List Char
  start_seq : List Char
  end_seq : List Char

/-- The `Base10ToBaseNTranslator(len(charset), digits)` stage that
`CharsetTranslatorBuilder.build` wires in (default padding 0). -/
def CharsetTranslatorBuilder.baseN (b : CharsetTranslatorBuilder) : Base10ToBaseNTranslator :=
  ⟨b.charset.length, canonicalDigits b.charset.length, 0⟩

/-- The `StringReplacementTranslator(replacement)` stage of the pipeline. -/
def CharsetTranslatorBuilder.subst (b : CharsetTranslatorBuilder) :
    StringReplacementTranslator Char Char :=
  ⟨replacementPairs b.charset⟩

/-- `encode` of the translator produced by `CharsetTranslatorBuilder.build`,
with the seven chained stages unfolded in application order: iterate the
message's characters through `ord`, base-N encode each code point
(`str` of an already-string numeral is the identity), substitute each
canonical digit by its target symbol (`"".join` per group is the identity
on a character list), join the groups with the separator, and frame. -/
def CharsetTranslatorBuilder.encode (b : CharsetTranslatorBuilder) (msg : List Char) :
    Except TransError (List Char) :=
  exBind (mapME (fun ch => UnicodeCharacterTranslator.encode [ch]) msg) (fun codes =>
    let numerals := codes.map (fun code => b.baseN.encode code)
    exBind (mapME (fun numeral => mapME (fun d => b.subst.encode d) numeral) numerals)
      (fun groups =>
        let joined := List.intercalate b.separator groups
        .ok (EmbeddedMessageTranslator.encode ⟨b.start_seq, b.end_seq⟩ joined)))

/-- `decode` of the translator produced by `CharsetTranslatorBuilder.build`:
unframe the carrier, split on the separator, invert the per-digit
substitution of each group, base-N decode each numeral, and map code
points back to characters.  (The Python composite consumes lazily group
by group; on the success path the materialised stage order used here
computes the same value.) -/
def CharsetTranslatorBuilder.decode (b : CharsetTranslatorBuilder) (text : List Char) :
    Except TransError (List Char) :=
  exBind (EmbeddedMessageTranslator.decode ⟨b.start_seq, b.end_seq⟩ text) (fun framed =>
    exBind (pySplit b.separator framed) (fun groups =>
      exBind (mapME (fun g => mapME (fun sym => b.subst.decode sym) g) groups)
        (fun numerals =>
          exBind (mapME (fun numeral => b.baseN.decode numeral) numerals) (fun codes =>
            mapME (fun code => UnicodeCharacterTranslator.decode code) codes))))

/-- Digit values of a code point in base `n`, most significant first
(`[0]` for zero): the abstract content of the numeral produced by
`Base10ToBaseNTranslator.encode` with padding 0 (proof infrastructure,
characterised by `baseN_encode_eq_charNumeral` below). -/
def msdDigits (n m : Nat) : List Nat :=
  if m = 0 then [0] else (Nat.digits n m).reverse

/-- The canonical-digit numeral the pipeline produces for one character. -/
def charNumeral (b : CharsetTranslatorBuilder) (c : Char) : List Char :=
  (msdDigits b.charset.length c.toNat).map
    (fun d => (canonicalDigits b.charset.length).getD d ' ')

/-- The substituted symbol group the pipeline produces for one character. -/
def charGroup (b : CharsetTranslatorBuilder) (c : Char) : List Char :=
  (msdDigits b.charset.length c.toNat).map (fun d => b.charset.getD d ' ')

/-! ### Generic helper lemmas -/

theorem findFirstIdx_some_iff (p : Nat → Bool) :
    ∀ (fuel start i : Nat), findFirstIdx p start fuel = some i ↔
      (start ≤ i ∧ i < start + fuel ∧ p i = true ∧ ∀ k, start ≤ k → k < i → p k = false) := by
  intro fuel
  induction fuel with
  | zero =>
    intro start i
    simp only [findFirstIdx]
    constructor
    · intro h; cases h
    · rintro ⟨h1, h2, -, -⟩; omega
  | succ fuel ih =>
    intro start i
    simp only [findFirstIdx]
    cases hp : p start with
    | true =>
      rw [if_pos rfl]
      constructor
      · intro h
        cases h
        exact ⟨le_refl _, by omega, hp, fun k hk1 hk2 => absurd hk1 (by omega)⟩
      · rintro ⟨h1, -, h3, h4⟩
        have heq : start = i := by
          by_contra hne
          have := h4 start (le_refl _) (by omega)
          rw [this] at hp; cases hp
        rw [heq]
    | false =>
      rw [if_neg (by simp), ih]
      constructor
      · rintro ⟨h1, h2, h3, h4⟩
        refine ⟨by omega, by omega, h3, fun k hk1 hk2 => ?_⟩
        rcases Nat.eq_or_lt_of_le hk1 with h | h
        · rw [← h]; exact hp
        · exact h4 k h hk2
      · rintro ⟨h1, h2, h3, h4⟩
        have hne : start ≠ i := by
          intro h; rw [h] at hp; rw [hp] at h3; cases h3
        exact ⟨by omega, by omega, h3, fun k hk1 hk2 => h4 k (by omega) hk2⟩

theorem findFirstIdx_none_iff (p : Nat → Bool) :
    ∀ (fuel start : Nat), findFirstIdx p start fuel = none ↔
      ∀ k, start ≤ k → k < start + fuel → p k = false := by
  intro fuel
  induction fuel with
  | zero =>
    intro start
    simp only [findFirstIdx]
    constructor
    · intro _ k h1 h2; omega
    · intro _; trivial
  | succ fuel ih =>
    intro start
    simp only [findFirstIdx]
    cases hp : p start with
    | true =>
      rw [if_pos rfl]
      constructor
      · intro h; cases h
      · intro h
        have := h start (le_refl _) (by omega)
        rw [hp] at this; cases this
    | false =>
      rw [if_neg (by simp), ih]
      constructor
      · intro h k hk1 hk2
        rcases Nat.eq_or_lt_of_le hk1 with h' | h'
        · rw [← h']; exact hp
        · exact h k h' (by omega)
      · intro h k hk1 hk2
        exact h k (by omega) (by omega)

theorem findLastIdx_some_iff (p : Nat → Bool) :
    ∀ (n j : Nat), findLastIdx p n = some j ↔
      (j ≤ n ∧ p j = true ∧ ∀ k, j < k → k ≤ n → p k = false) := by
  intro n
  induction n with
  | zero =>
    intro j
    simp only [findLastIdx]
    cases hp : p 0 with
    | true =>
      rw [if_pos rfl]
      constructor
      · intro h
        cases h
        exact ⟨le_refl _, hp, fun k hk1 hk2 => by omega⟩
      · rintro ⟨h1, h2, -⟩
        have : j = 0 := by omega
        rw [this]
    | false =>
      rw [if_neg (by simp)]
      constructor
      · intro h; cases h
      · rintro ⟨h1, h2, -⟩
        have hj : j = 0 := by omega
        rw [hj] at h2; rw [hp] at h2; cases h2
  | succ n ih =>
    intro j
    simp only [findLastIdx]
    cases hp : p (n + 1) with
    | true =>
      rw [if_pos rfl]
      constructor
      · intro h
        cases h
        exact ⟨le_refl _, hp, fun k hk1 hk2 => by omega⟩
      · rintro ⟨h1, h2, h3⟩
        have heq : j = n + 1 := by
          by_contra hne
          have := h3 (n + 1) (by omega) (le_refl _)
          rw [this] at hp; cases hp
        rw [heq]
    | false =>
      rw [if_neg (by simp), ih]
      constructor
      · rintro ⟨h1, h2, h3⟩
        refine ⟨by omega, h2, fun k hk1 hk2 => ?_⟩
        rcases Nat.eq_or_lt_of_le hk2 with h | h
        · rw [h]; exact hp
        · exact h3 k hk1 (by omega)
      · rintro ⟨h1, h2, h3⟩
        have hne : j ≠ n + 1 := by
          intro h; rw [h] at h2; rw [hp] at h2; cases h2
        exact ⟨by omega, h2, fun k hk1 hk2 => h3 k hk1 (by omega)⟩

theorem findLastIdx_none_iff (p : Nat → Bool) :
    ∀ (n : Nat), findLastIdx p n = none ↔ ∀ k, k ≤ n → p k = false := by
  intro n
  induction n with
  | zero =>
    simp only [findLastIdx]
    cases hp : p 0 with
    | true =>
      rw [if_pos rfl]
      constructor
      · intro h; cases h
      · intro h
        have := h 0 (le_refl _)
        rw [hp] at this; cases this
    | false =>
      rw [if_neg (by simp)]
      constructor
      · intro _ k hk
        have : k = 0 := by omega
        rw [this]; exact hp
      · intro _; trivial
  | succ n ih =>
    simp only [findLastIdx]
    cases hp : p (n + 1) with
    | true =>
      rw [if_pos rfl]
      constructor
      · intro h; cases h
      · intro h
        have := h (n + 1) (le_refl _)
        rw [hp] at this; cases this
    | false =>
      rw [if_neg (by simp), ih]
      constructor
      · intro h k hk
        rcases Nat.eq_or_lt_of_le hk with h' | h'
        · rw [h']; exact hp
        · exact h k (by omega)
      · intro h k hk
        exact h k (by omega)

theorem occAtB_iff (pat s : List Char) (k : Nat) :
    occAtB pat s k = true ↔ (s.drop k).take pat.length = pat := by
  simp [occAtB]

theorem mapME_congr_ok (f : α → Except TransError β) (g : α → β) :
    ∀ (l : List α), (∀ a ∈ l, f a = .ok (g a)) → mapME f l = .ok (l.map g) := by
  intro l
  induction l with
  | nil => intro _; rfl
  | cons a l ih =>
    intro h
    simp only [mapME, h a (List.mem_cons_self a l), ih fun b hb => h b (List.mem_cons_of_mem a hb),
      List.map_cons]

theorem exBind_ok (v : α) (f : α → Except TransError β) : exBind (.ok v) f = f v := rfl

/-! ### Dict model lemmas -/

theorem dictInsert_fresh [DecidableEq α] (d : List (α × β)) (k : α) (v : β)
    (h : ∀ p ∈ d, p.1 ≠ k) : dictInsert d k v = d ++ [(k, v)] := by
  unfold dictInsert
  rw [if_neg]
  simp only [List.any_eq_true, decide_eq_true_eq, not_exists, not_and]
  intro p hp
  exact h p hp

theorem dictOf_go [DecidableEq α] :
    ∀ (ps acc : List (α × β)), (((acc ++ ps).map Prod.fst).Nodup) →
      ps.foldl (fun d p => dictInsert d p.1 p.2) acc = acc ++ ps := by
  intro ps
  induction ps with
  | nil => intro acc _; simp
  | cons p ps ih =>
    intro acc h
    have hfresh : ∀ q ∈ acc, q.1 ≠ p.1 := by
      intro q hq heq
      rw [List.map_append, List.nodup_append] at h
      exact h.2.2 (List.mem_map_of_mem Prod.fst hq)
        (by rw [heq]; exact List.mem_map_of_mem Prod.fst (List.mem_cons_self p ps))
    simp only [List.foldl_cons]
    rw [dictInsert_fresh _ _ _ hfresh]
    have h' : (((acc ++ [p]) ++ ps).map Prod.fst).Nodup := by
      rw [List.append_assoc, List.singleton_append]
      exact h
    rw [ih (acc ++ [p]) h', List.append_assoc, List.singleton_append]

theorem dictOf_of_nodup_keys [DecidableEq α] (ps : List (α × β))
    (h : (ps.map Prod.fst).Nodup) : dictOf ps = ps := by
  have := dictOf_go ps [] (by simpa using h)
  simpa [dictOf] using this

theorem dictGet?_pairs [DecidableEq α] :
    ∀ (ps : List (α × β)), ((ps.map Prod.fst).Nodup) → ∀ (i : Nat) (hi : i < ps.length),
      dictGet? ps (ps.get ⟨i, hi⟩).1 = some (ps.get ⟨i, hi⟩).2 := by
  intro ps
  induction ps with
  | nil => intro _ i hi; cases hi
  | cons q ps ih =>
    intro h i hi
    match i with
    | 0 =>
      simp only [dictGet?, List.get_cons_zero]
      rw [List.find?_cons_of_pos _ (by simp)]
      rfl
    | i + 1 =>
      have hi' : i < ps.length := by simpa using hi
      have hq : q.1 ≠ ((ps.get ⟨i, hi'⟩).1) := by
        intro heq
        rw [List.map_cons, List.nodup_cons] at h
        exact h.1 (by rw [heq]; exact List.mem_map_of_mem Prod.fst (ps.get_mem _ _))
      have hrec := ih (by rw [List.map_cons, List.nodup_cons] at h; exact h.2) i hi'
      simp only [List.get_cons_succ]
      simp only [dictGet?] at hrec ⊢
      rw [List.find?_cons_of_neg _ (by simpa using hq)]
      exact hrec

/-! ### Base-N conversion lemmas -/

theorem listIndex?_get (l : List Char) (hnd : l.Nodup) :
    ∀ (d : Nat) (hd : d < l.length), listIndex? (l.get ⟨d, hd⟩) l = some d := by
  induction l with
  | nil => intro d hd; cases hd
  | cons c tl ih =>
    intro d hd
    match d with
    | 0 => simp [listIndex?]
    | d + 1 =>
      have hd' : d < tl.length := by simpa using hd
      have hne : c ≠ tl.get ⟨d, hd'⟩ := by
        intro heq
        rw [List.nodup_cons] at hnd
        exact hnd.1 (heq ▸ tl.get_mem d hd')
      simp only [List.get_cons_succ, listIndex?, if_neg hne,
        ih (List.nodup_cons.mp hnd).2 d hd']
      rfl

theorem encodeLoop_eq_digits (t : Base10ToBaseNTranslator) (hb : 2 ≤ t.base) :
    ∀ (fuel m : Nat), m ≤ fuel →
      t.encodeLoop fuel m = (Nat.digits t.base m).map (fun d => t.digits.getD d ' ') := by
  intro fuel
  induction fuel with
  | zero =>
    intro m hm
    have : m = 0 := by omega
    subst this
    simp [Base10ToBaseNTranslator.encodeLoop]
  | succ fuel ih =>
    intro m hm
    match m with
    | 0 => simp [Base10ToBaseNTranslator.encodeLoop]
    | k + 1 =>
      have hdiv : (k + 1) / t.base < k + 1 := Nat.div_lt_self (Nat.succ_pos k) (by omega)
      rw [Base10ToBaseNTranslator.encodeLoop,
        Nat.digits_def' (by omega : 1 < t.base) (Nat.succ_pos k), List.map_cons,
        ih ((k + 1) / t.base) (by omega)]

theorem digitIndex_getD (t : Base10ToBaseNTranslator) (hnd : t.digits.Nodup)
    (d : Nat) (hd : d < t.digits.length) :
    t.digitIndex (t.digits.getD d ' ') = .ok d := by
  rw [Base10ToBaseNTranslator.digitIndex, List.getD_eq_getElem t.digits ' ' hd]
  have := listIndex?_get t.digits hnd d hd
  rw [List.get_eq_getElem] at this
  rw [this]

theorem decodeSum_map (t : Base10ToBaseNTranslator) (hnd : t.digits.Nodup) :
    ∀ (l : List Nat), (∀ d ∈ l, d < t.digits.length) → ∀ (i : Nat),
      t.decodeSum (l.map (fun d => t.digits.getD d ' ')) i =
        .ok (Nat.ofDigits t.base l * t.base ^ i) := by
  intro l
  induction l with
  | nil =>
    intro _ i
    simp [Base10ToBaseNTranslator.decodeSum, Nat.ofDigits_nil]
  | cons d l ih =>
    intro h i
    have hd : d < t.digits.length := h d (List.mem_cons_self d l)
    rw [List.map_cons, Base10ToBaseNTranslator.decodeSum,
      digitIndex_getD t hnd d hd, ih (fun x hx => h x (List.mem_cons_of_mem d hx)) (i + 1)]
    rw [Nat.ofDigits_cons]
    simp only [Nat.cast_id]
    ring_nf

theorem ofDigits_replicate_zero (b k : Nat) : Nat.ofDigits b (List.replicate k 0) = 0 := by
  induction k with
  | zero => rfl
  | succ k ih => simp [List.replicate, Nat.ofDigits_cons, ih]

theorem encode_pos_form (t : Base10ToBaseNTranslator) (hb : 2 ≤ t.base) (n : Int) (hn : 0 < n) :
    t.encode n =
      (List.replicate (t.padding - (Nat.digits t.base n.natAbs).length) 0 ++
        (Nat.digits t.base n.natAbs).reverse).map (fun d => t.digits.getD d ' ') := by
  simp only [Base10ToBaseNTranslator.encode]
  rw [if_neg (by omega), if_neg (by omega)]
  rw [encodeLoop_eq_digits t hb _ _ (le_refl _)]
  rw [List.map_append, List.reverse_append, List.map_reverse, List.length_map,
    List.reverse_replicate]
  congr 1
  rw [List.map_replicate]

theorem encode_neg_nopad_form (t : Base10ToBaseNTranslator) (hb : 2 ≤ t.base) (n : Int)
    (hn : n < 0) (hp : t.padding ≤ (Nat.digits t.base n.natAbs).length + 1) :
    t.encode n =
      '-' :: ((Nat.digits t.base n.natAbs).reverse).map (fun d => t.digits.getD d ' ') := by
  simp only [Base10ToBaseNTranslator.encode]
  rw [if_neg (by omega), if_pos (by omega)]
  rw [encodeLoop_eq_digits t hb _ _ (le_refl _)]
  have hlen : t.padding -
      (((Nat.digits t.base n.natAbs).map (fun d => t.digits.getD d ' ')) ++ ['-']).length = 0 := by
    simp only [List.length_append, List.length_map, List.length_cons, List.length_nil]
    omega
  rw [hlen, List.replicate_zero, List.append_nil, List.reverse_append, List.map_reverse]
  rfl

theorem decode_mapped_digits (t : Base10ToBaseNTranslator) (hnd : t.digits.Nodup)
    (hminus : '-' ∉ t.digits) (l : List Nat) (hne : l ≠ [])
    (hlt : ∀ d ∈ l, d < t.digits.length) :
    t.decode (l.reverse.map (fun d => t.digits.getD d ' ')) =
      .ok (Int.ofNat (Nat.ofDigits t.base l)) := by
  have hmem : ∀ d ∈ l.reverse, t.digits.getD d ' ' ∈ t.digits := by
    intro d hd
    have hdl : d < t.digits.length := hlt d (List.mem_reverse.mp hd)
    rw [List.getD_eq_getElem t.digits ' ' hdl]
    exact List.getElem_mem hdl
  obtain ⟨v, vs, hvl⟩ := List.exists_cons_of_ne_nil (by
    intro h
    rw [List.reverse_eq_nil_iff] at h
    exact hne h : l.reverse ≠ [])
  rw [hvl, List.map_cons, Base10ToBaseNTranslator.decode]
  have hv : t.digits.getD v ' ' ∈ t.digits := hmem v (hvl ▸ List.mem_cons_self v vs)
  rw [if_neg (by intro h; rw [h] at hv; exact hminus hv)]
  have hrw : t.digits.getD v ' ' :: vs.map (fun d => t.digits.getD d ' ') =
      (v :: vs).map (fun d => t.digits.getD d ' ') := rfl
  rw [hrw, ← List.map_reverse, ← hvl, List.reverse_reverse]
  rw [decodeSum_map t hnd l hlt 0]
  simp

theorem decode_encode_nonneg (t : Base10ToBaseNTranslator) (hb : 2 ≤ t.base)
    (hlen : t.base ≤ t.digits.length) (hnd : t.digits.Nodup)
    (h0 : t.digits.getD 0 ' ' = '0') (hminus : '-' ∉ t.digits) (m : Nat) :
    t.decode (t.encode (m : Int)) = .ok (m : Int) := by
  match m with
  | 0 =>
    have henc : t.encode ((0 : Nat) : Int) = ['0'] := by
      simp [Base10ToBaseNTranslator.encode]
    rw [henc]
    have hidx : t.digitIndex '0' = .ok 0 := by
      rw [← h0]
      exact digitIndex_getD t hnd 0 (by omega)
    simp only [Base10ToBaseNTranslator.decode]
    rw [if_neg (by decide)]
    have hrev : (['0'] : List Char).reverse = ['0'] := rfl
    rw [hrev]
    simp only [Base10ToBaseNTranslator.decodeSum, hidx]
    simp
  | k + 1 =>
    have hne0 : ((k + 1 : Nat) : Int) ≠ 0 := by omega
    have habs : ((k + 1 : Nat) : Int).natAbs = k + 1 := rfl
    have henc := encode_pos_form t hb ((k + 1 : Nat) : Int) (by omega)
    rw [habs] at henc
    set l := Nat.digits t.base (k + 1) ++
      List.replicate (t.padding - (Nat.digits t.base (k + 1)).length) 0 with hl
    have hform : t.encode ((k + 1 : Nat) : Int) = l.reverse.map (fun d => t.digits.getD d ' ') := by
      rw [henc, hl, List.reverse_append, List.reverse_replicate]
    have hlne : l ≠ [] := by
      rw [hl]
      intro h
      rcases List.append_eq_nil.mp h with ⟨h1, -⟩
      exact (Nat.digits_ne_nil_iff_ne_zero.mpr (by omega)) h1
    have hlt : ∀ d ∈ l, d < t.digits.length := by
      intro d hd
      rw [hl, List.mem_append] at hd
      rcases hd with hd | hd
      · exact lt_of_lt_of_le (Nat.digits_lt_base (by omega) hd) hlen
      · rw [List.eq_of_mem_replicate hd]; omega
    rw [hform, decode_mapped_digits t hnd hminus l hlne hlt]
    rw [hl, Nat.ofDigits_append, Nat.ofDigits_digits, ofDigits_replicate_zero]
    simp

theorem decode_encode_neg (t : Base10ToBaseNTranslator) (hb : 2 ≤ t.base)
    (hlen : t.base ≤ t.digits.length) (hnd : t.digits.Nodup)
    (n : Int) (hneg : n < 0) (hp : t.padding ≤ (Nat.digits t.base n.natAbs).length + 1) :
    t.decode (t.encode n) = .ok n ∧ (t.encode n).head? = some '-' := by
  have henc := encode_neg_nopad_form t hb n hneg hp
  constructor
  · rw [henc]
    simp only [Base10ToBaseNTranslator.decode]
    rw [if_pos trivial]
    have hrev : ((Nat.digits t.base n.natAbs).reverse.map
        (fun d => t.digits.getD d ' ')).reverse =
        (Nat.digits t.base n.natAbs).map (fun d => t.digits.getD d ' ') := by
      rw [← List.map_reverse, List.reverse_reverse]
    rw [hrev]
    have hlt : ∀ d ∈ Nat.digits t.base n.natAbs, d < t.digits.length :=
      fun d hd => lt_of_lt_of_le (Nat.digits_lt_base (by omega) hd) hlen
    rw [decodeSum_map t hnd (Nat.digits t.base n.natAbs) hlt 0]
    rw [Nat.ofDigits_digits]
    have habs : ((n.natAbs : Nat) : Int) = -n := Int.ofNat_natAbs_of_nonpos (by omega)
    simp only [pow_zero, Nat.mul_one]
    simp [habs]
  · rw [henc]; rfl

/-! ### Framing lemmas -/

theorem emt_decode_encode (t : EmbeddedMessageTranslator) (m : List Char)
    (hm : '\n' ∉ m) : t.decode (t.encode m) = .ok m := by
  rw [EmbeddedMessageTranslator.encode]
  set st := t.start_seq with hst
  set e := t.end_seq with he
  set s : List Char := st ++ m ++ e with hs
  have hlen : s.length = st.length + m.length + e.length := by
    rw [hs]; simp [List.length_append]; omega
  have hocc0 : occAtB st s 0 = true := by
    rw [occAtB_iff, hs, List.drop_zero, List.append_assoc, List.take_left]
  have hocce : occAtB e s (s.length - e.length) = true := by
    rw [occAtB_iff]
    have hd : s.length - e.length = (st ++ m).length := by
      rw [List.length_append]; omega
    rw [hd, hs, List.drop_left, List.take_length]
  have hgap : dotGapB ((s.drop (0 + st.length)).take
      (s.length - e.length - (0 + st.length))) = true := by
    have hd : s.drop (0 + st.length) = m ++ e := by
      rw [Nat.zero_add, hs, List.append_assoc, List.drop_left]
    have hn : s.length - e.length - (0 + st.length) = m.length := by omega
    rw [hd, hn, List.take_left, dotGapB, List.all_eq_true]
    intro c hc
    have : c ≠ '\n' := fun h => hm (h ▸ hc)
    simp [this]
  have hme : t.matchEnd s 0 = some s.length := by
    rw [EmbeddedMessageTranslator.matchEnd, findLastIdx_some_iff]
    refine ⟨le_refl _, ?_, fun k hk1 hk2 => by omega⟩
    rw [Bool.and_eq_true, Bool.and_eq_true]
    refine ⟨⟨by rw [decide_eq_true_eq, ← hst, ← he]; omega, by rw [← he]; exact hocce⟩, ?_⟩
    rw [← hst, ← he]
    exact hgap
  have hfs : t.findStart s = some 0 := by
    rw [EmbeddedMessageTranslator.findStart, findFirstIdx_some_iff]
    refine ⟨le_refl _, by omega, ?_, fun k hk1 hk2 => by omega⟩
    rw [Bool.and_eq_true]
    exact ⟨by rw [← hst]; exact hocc0, by rw [hme]; rfl⟩
  rw [EmbeddedMessageTranslator.decode, hfs]
  dsimp only
  rw [hme]
  dsimp only
  rw [List.drop_zero, Nat.sub_zero, List.take_length]
  rw [EmbeddedMessageTranslator.decodeCandidate]
  have hpre : st.isPrefixOf s = true := by
    rw [List.isPrefixOf_iff_prefix, hs, List.append_assoc]
    exact ⟨m ++ e, rfl⟩
  have hsuf : e.isSuffixOf s = true := by
    rw [List.isSuffixOf_iff_suffix, hs]
    exact ⟨st ++ m, rfl⟩
  rw [← hst, ← he]
  rw [if_neg (by simp [hpre]), if_neg (by simp [hsuf])]
  have h1 : s.drop st.length = m ++ e := by
    rw [hs, List.append_assoc, List.drop_left]
  have h2 : s.length - e.length - st.length = m.length := by omega
  rw [h1, h2, List.take_left]

/-! ### Split / join lemmas -/

theorem intercalate_cons_cons (sep a b : List Char) (l : List (List Char)) :
    List.intercalate sep (a :: b :: l) = a ++ sep ++ List.intercalate sep (b :: l) := by
  simp [List.intercalate, List.intersperse_cons₂]

theorem firstOcc?_none_of_head_notin (c : Char) (cs s : List Char) (h : c ∉ s) :
    firstOcc? (c :: cs) s = none := by
  rw [firstOcc?, findFirstIdx_none_iff]
  intro k _ _
  cases hb : (c :: cs).isPrefixOf (s.drop k) with
  | false => rfl
  | true =>
    exfalso
    rw [List.isPrefixOf_iff_prefix] at hb
    obtain ⟨tl, htl⟩ := hb
    apply h
    apply List.drop_subset k s
    rw [← htl]
    exact List.mem_cons_self c _

theorem firstOcc?_at_boundary (c : Char) (cs g T : List Char) (hg : c ∉ g) :
    firstOcc? (c :: cs) (g ++ (c :: cs) ++ T) = some g.length := by
  rw [firstOcc?, findFirstIdx_some_iff]
  refine ⟨Nat.zero_le _, by simp [List.length_append]; omega, ?_, ?_⟩
  · rw [List.append_assoc, List.drop_left, List.isPrefixOf_iff_prefix]
    exact ⟨T, rfl⟩
  · intro k _ hk
    cases hb : (c :: cs).isPrefixOf ((g ++ (c :: cs) ++ T).drop k) with
    | false => rfl
    | true =>
      exfalso
      rw [List.isPrefixOf_iff_prefix] at hb
      obtain ⟨tl, htl⟩ := hb
      have hdrop : (g ++ (c :: cs) ++ T).drop k = g.drop k ++ ((c :: cs) ++ T) := by
        rw [List.append_assoc]
        exact List.drop_append_of_le_length (by omega)
      have hgk : g.drop k = g[k] :: g.drop (k + 1) := List.drop_eq_getElem_cons hk
      rw [hdrop, hgk] at htl
      rw [show (c :: cs) ++ tl = c :: (cs ++ tl) from rfl] at htl
      injection htl with h1 h2
      exact hg (h1 ▸ List.getElem_mem hk)

theorem listSplitOnF_intercalate (c : Char) (cs : List Char) :
    ∀ (groups : List (List Char)) (fuel : Nat),
      groups ≠ [] → (∀ g ∈ groups, c ∉ g) →
      (List.intercalate (c :: cs) groups).length ≤ fuel →
      listSplitOnF c cs fuel (List.intercalate (c :: cs) groups) = groups := by
  intro groups
  induction groups with
  | nil => intro fuel h; exact absurd rfl h
  | cons g rest ih =>
    intro fuel _ hnotin hfuel
    match rest with
    | [] =>
      have hg : List.intercalate (c :: cs) [g] = g := by simp [List.intercalate]
      rw [hg] at hfuel ⊢
      match fuel with
      | 0 => rfl
      | f + 1 =>
        rw [listSplitOnF,
          firstOcc?_none_of_head_notin c cs g (hnotin g (List.mem_cons_self g []))]
    | g2 :: rest2 =>
      rw [intercalate_cons_cons] at hfuel ⊢
      set T := List.intercalate (c :: cs) (g2 :: rest2) with hT
      have hlen : (g ++ (c :: cs) ++ T).length =
          g.length + (cs.length + 1) + T.length := by
        simp [List.length_append]
        omega
      match fuel with
      | 0 => omega
      | f + 1 =>
        rw [listSplitOnF,
          firstOcc?_at_boundary c cs g T (hnotin g (List.mem_cons_self g _))]
        dsimp only
        have htake : (g ++ (c :: cs) ++ T).take g.length = g := by
          rw [List.append_assoc, List.take_left]
        have hdrop : (g ++ (c :: cs) ++ T).drop (g.length + (cs.length + 1)) = T := by
          have : g.length + (cs.length + 1) = (g ++ (c :: cs)).length := by
            simp [List.length_append]
          rw [this, List.drop_left]
        rw [htake, hdrop,
          ih f (by intro h; cases h) (fun x hx => hnotin x (List.mem_cons_of_mem g hx))
            (by omega)]

theorem pySplit_intercalate (c : Char) (cs : List Char) (groups : List (List Char))
    (hne : groups ≠ []) (hnotin : ∀ g ∈ groups, c ∉ g) :
    pySplit (c :: cs) (List.intercalate (c :: cs) groups) = .ok groups := by
  rw [pySplit, listSplitOnF_intercalate c cs groups _ hne hnotin (le_refl _)]

theorem notin_intercalate (x : Char) (sep : List Char) :
    ∀ (groups : List (List Char)), x ∉ sep → (∀ g ∈ groups, x ∉ g) →
      x ∉ List.intercalate sep groups := by
  intro groups
  induction groups with
  | nil =>
    intro _ _ h
    simp [List.intercalate] at h
  | cons g rest ih =>
    intro hsep hg hmem
    match rest with
    | [] =>
      rw [show List.intercalate sep [g] = g by simp [List.intercalate]] at hmem
      exact hg g (List.mem_cons_self g _) hmem
    | g2 :: rest2 =>
      rw [intercalate_cons_cons] at hmem
      rcases List.mem_append.mp hmem with h | h
      · rcases List.mem_append.mp h with h' | h'
        · exact hg g (List.mem_cons_self g _) h'
        · exact hsep h'
      · exact ih hsep (fun g' hg' => hg g' (List.mem_cons_of_mem g hg')) h

/-! ### Canonical digit alphabet and substitution lemmas -/

theorem prefixOf_drop {α : Type} {a b : List α} (h : a <+: b) (k : Nat) :
    a.drop k <+: b.drop k := by
  obtain ⟨t, rfl⟩ := h
  by_cases hk : k ≤ a.length
  · rw [List.drop_append_of_le_length hk]
    exact ⟨t, rfl⟩
  · rw [List.drop_eq_nil_of_le (by omega)]
    exact ⟨(a ++ t).drop k, rfl⟩

theorem prefixOf_map {α β : Type} {a b : List α} (f : α → β) (h : a <+: b) :
    a.map f <+: b.map f := by
  obtain ⟨t, rfl⟩ := h
  exact ⟨t.map f, (List.map_append f a t).symm⟩

theorem prefixOf_append_left {α : Type} (c : List α) {a b : List α} (h : a <+: b) :
    c ++ a <+: c ++ b := by
  obtain ⟨t, rfl⟩ := h
  exact ⟨t, List.append_assoc c a t⟩

theorem range_prefixOf_range {m n : Nat} (h : m ≤ n) : List.range m <+: List.range n := by
  refine ⟨(List.range n).drop m, ?_⟩
  have := List.take_append_drop m (List.range n)
  rw [List.take_range, Nat.min_eq_left h] at this
  exact this

theorem canonicalDigits_length (n : Nat) : n ≤ (canonicalDigits n).length := by
  have h62 : base62.length = 62 := by decide
  simp only [canonicalDigits, List.length_append, List.length_map, List.length_drop,
    List.length_range, h62]
  omega

theorem canonicalDigits_le_prefixOf {n : Nat} (h : n ≤ 65) :
    canonicalDigits n <+: canonicalDigits 65 := by
  unfold canonicalDigits
  exact prefixOf_append_left base62
    (prefixOf_map _ (prefixOf_drop (by
      obtain ⟨t, ht⟩ := range_prefixOf_range h
      exact ⟨t, ht⟩) 62))

theorem canonicalDigits_nodup {n : Nat} (h : n ≤ 65) : (canonicalDigits n).Nodup := by
  have h65 : (canonicalDigits 65).Nodup := by decide
  exact List.Nodup.sublist (canonicalDigits_le_prefixOf h).sublist h65

theorem canonicalDigits_no_minus {n : Nat} (h : n ≤ 65) : '-' ∉ canonicalDigits n := by
  intro hmem
  have h65 : '-' ∉ canonicalDigits 65 := by decide
  exact h65 ((canonicalDigits_le_prefixOf h).subset hmem)

theorem canonicalDigits_getD_zero (n : Nat) : (canonicalDigits n).getD 0 ' ' = '0' := by
  have : (canonicalDigits n).getD 0 ' ' = base62.getD 0 ' ' := by
    unfold canonicalDigits
    exact List.getD_append _ _ _ _ (by decide)
  rw [this]
  decide

theorem replacementPairs_get (charset : List Char) (i : Nat) (hi : i < charset.length) :
    (replacementPairs charset).get ⟨i, by simpa [replacementPairs] using hi⟩ =
      ((canonicalDigits charset.length).getD i ' ', charset.getD i ' ') := by
  simp [replacementPairs, List.get_eq_getElem]

theorem replacementPairs_keys_nodup (charset : List Char) (h65 : charset.length ≤ 65) :
    ((replacementPairs charset).map Prod.fst).Nodup := by
  rw [replacementPairs, List.map_map]
  apply List.Nodup.map_on _ (List.nodup_range _)
  intro x hx y hy hxy
  rw [List.mem_range] at hx hy
  have hcd := canonicalDigits_nodup h65
  have hlen := canonicalDigits_length charset.length
  simp only [Function.comp] at hxy
  rw [List.getD_eq_getElem _ ' ' (by omega), List.getD_eq_getElem _ ' ' (by omega)] at hxy
  exact (List.Nodup.getElem_inj_iff hcd).mp hxy

theorem replacementPairs_values_nodup (charset : List Char) (hnd : charset.Nodup) :
    ((replacementPairs charset).map Prod.snd).Nodup := by
  rw [replacementPairs, List.map_map]
  apply List.Nodup.map_on _ (List.nodup_range _)
  intro x hx y hy hxy
  rw [List.mem_range] at hx hy
  simp only [Function.comp] at hxy
  rw [List.getD_eq_getElem _ ' ' hx, List.getD_eq_getElem _ ' ' hy] at hxy
  exact (List.Nodup.getElem_inj_iff hnd).mp hxy

theorem subst_encode_val (b : CharsetTranslatorBuilder)
    (h65 : b.charset.length ≤ 65) (v : Nat) (hv : v < b.charset.length) :
    b.subst.encode ((canonicalDigits b.charset.length).getD v ' ') =
      .ok (b.charset.getD v ' ') := by
  have hkeys := replacementPairs_keys_nodup b.charset h65
  rw [CharsetTranslatorBuilder.subst, StringReplacementTranslator.encode]
  rw [dictOf_of_nodup_keys _ hkeys]
  have hlen : v < (replacementPairs b.charset).length := by
    simpa [replacementPairs] using hv
  have := dictGet?_pairs (replacementPairs b.charset) hkeys v hlen
  rw [replacementPairs_get b.charset v hv] at this
  rw [this]

theorem subst_decode_val (b : CharsetTranslatorBuilder) (hnd : b.charset.Nodup)
    (h65 : b.charset.length ≤ 65) (v : Nat) (hv : v < b.charset.length) :
    b.subst.decode (b.charset.getD v ' ') =
      .ok ((canonicalDigits b.charset.length).getD v ' ') := by
  have hkeys := replacementPairs_keys_nodup b.charset h65
  have hvals := replacementPairs_values_nodup b.charset hnd
  have hswap : b.subst.charset_inv = (replacementPairs b.charset).map (fun p => (p.2, p.1)) := by
    rw [CharsetTranslatorBuilder.subst, StringReplacementTranslator.charset_inv]
    rw [dictOf_of_nodup_keys _ hkeys]
    apply dictOf_of_nodup_keys
    rw [List.map_map]
    simpa [Function.comp] using hvals
  rw [StringReplacementTranslator.decode, hswap]
  have hlen : v < ((replacementPairs b.charset).map (fun p => (p.2, p.1))).length := by
    simpa [replacementPairs] using hv
  have hkeys' : (((replacementPairs b.charset).map (fun p => (p.2, p.1))).map Prod.fst).Nodup := by
    rw [List.map_map]
    simpa [Function.comp] using hvals
  have := dictGet?_pairs _ hkeys' v hlen
  rw [List.get_map] at this
  rw [replacementPairs_get b.charset v hv] at this
  rw [this]

/-! ### Per-character pipeline lemmas -/

theorem mapME_map (f : β → Except TransError γ) (h : α → β) (l : List α) :
    mapME f (l.map h) = mapME (fun a => f (h a)) l := by
  induction l with
  | nil => rfl
  | cons a l ih => simp only [List.map_cons, mapME, ih]

theorem msdDigits_lt (n m : Nat) (h2 : 2 ≤ n) : ∀ d ∈ msdDigits n m, d < n := by
  intro d hd
  rw [msdDigits] at hd
  by_cases hm : m = 0
  · rw [if_pos hm] at hd
    have : d = 0 := List.mem_singleton.mp hd
    omega
  · rw [if_neg hm] at hd
    exact Nat.digits_lt_base (by omega) (List.mem_reverse.mp hd)

theorem baseN_encode_eq_charNumeral (b : CharsetTranslatorBuilder)
    (h2 : 2 ≤ b.charset.length) (c : Char) :
    b.baseN.encode ((c.toNat : Nat) : Int) = charNumeral b c := by
  rw [charNumeral, msdDigits]
  by_cases hm : c.toNat = 0
  · rw [if_pos hm, hm]
    have : b.baseN.encode ((0 : Nat) : Int) = ['0'] := by
      simp [Base10ToBaseNTranslator.encode]
    rw [this, List.map_singleton, canonicalDigits_getD_zero]
  · rw [if_neg hm]
    have henc := encode_pos_form b.baseN (by rw [CharsetTranslatorBuilder.baseN]; exact h2)
      ((c.toNat : Nat) : Int) (by omega)
    have habs : (((c.toNat : Nat) : Int)).natAbs = c.toNat := rfl
    rw [habs] at henc
    have hpad : b.baseN.padding = 0 := rfl
    have hbase : b.baseN.base = b.charset.length := rfl
    have hdig : b.baseN.digits = canonicalDigits b.charset.length := rfl
    rw [henc, hpad, hbase, hdig, Nat.zero_sub, List.replicate_zero, List.nil_append]

theorem charNumeral_subst (b : CharsetTranslatorBuilder) (hnd : b.charset.Nodup)
    (h2 : 2 ≤ b.charset.length) (h65 : b.charset.length ≤ 65) (c : Char) :
    mapME b.subst.encode (charNumeral b c) = .ok (charGroup b c) ∧
      mapME b.subst.decode (charGroup b c) = .ok (charNumeral b c) ∧
      ∀ x ∈ charGroup b c, x ∈ b.charset := by
  refine ⟨?_, ?_, ?_⟩
  · rw [charNumeral, charGroup, mapME_map]
    apply mapME_congr_ok
    intro d hd
    exact subst_encode_val b h65 d (msdDigits_lt _ _ h2 d hd)
  · rw [charNumeral, charGroup, mapME_map]
    apply mapME_congr_ok
    intro d hd
    exact subst_decode_val b hnd h65 d (msdDigits_lt _ _ h2 d hd)
  · intro x hx
    rw [charGroup] at hx
    obtain ⟨d, hd, rfl⟩ := List.mem_map.mp hx
    have hdlt : d < b.charset.length := msdDigits_lt _ _ h2 d hd
    rw [List.getD_eq_getElem _ ' ' hdlt]
    exact List.getElem_mem hdlt

theorem baseN_decode_charNumeral (b : CharsetTranslatorBuilder)
    (h2 : 2 ≤ b.charset.length) (h65 : b.charset.length ≤ 65) (c : Char) :
    b.baseN.decode (charNumeral b c) = .ok ((c.toNat : Nat) : Int) := by
  rw [← baseN_encode_eq_charNumeral b h2 c]
  exact decode_encode_nonneg b.baseN h2 (canonicalDigits_length _)
    (canonicalDigits_nodup h65) (canonicalDigits_getD_zero _)
    (canonicalDigits_no_minus h65) c.toNat

theorem ucDecode_toNat (c : Char) (hc : c.toNat ≤ 255) :
    UnicodeCharacterTranslator.decode ((c.toNat : Nat) : Int) = .ok c := by
  rw [UnicodeCharacterTranslator.decode, if_pos (by omega)]
  rw [Int.toNat_ofNat, Char.ofNat_toNat]

theorem csb_pipeline_roundtrip (b : CharsetTranslatorBuilder) (msg : List Char)
    (hmsg : msg ≠ []) (hcode : ∀ c ∈ msg, c.toNat ≤ 255)
    (hnd : b.charset.Nodup) (h2 : 2 ≤ b.charset.length) (h65 : b.charset.length ≤ 65)
    (sc : Char) (scs : List Char) (hsep : b.separator = sc :: scs) (hsc : sc ∉ b.charset)
    (hnlc : '\n' ∉ b.charset) (hnls : '\n' ∉ b.separator) :
    exBind (b.encode msg) b.decode = .ok msg := by
  have hstage1 : mapME (fun ch => UnicodeCharacterTranslator.encode [ch]) msg =
      .ok (msg.map (fun c => ((c.toNat : Nat) : Int))) :=
    mapME_congr_ok _ _ msg (fun c _ => rfl)
  have hgroups : mapME (fun numeral => mapME b.subst.encode numeral)
      ((msg.map (fun c => ((c.toNat : Nat) : Int))).map (fun code => b.baseN.encode code)) =
      .ok (msg.map (charGroup b)) := by
    rw [List.map_map, mapME_map]
    apply mapME_congr_ok
    intro c hc
    simp only [Function.comp]
    rw [baseN_encode_eq_charNumeral b h2 c]
    exact (charNumeral_subst b hnd h2 h65 c).1
  have henc : b.encode msg = .ok (EmbeddedMessageTranslator.encode ⟨b.start_seq, b.end_seq⟩
      (List.intercalate b.separator (msg.map (charGroup b)))) := by
    rw [CharsetTranslatorBuilder.encode, hstage1, exBind_ok]
    dsimp only
    rw [hgroups, exBind_ok]
  rw [henc, exBind_ok]
  have hnl : '\n' ∉ List.intercalate b.separator (msg.map (charGroup b)) := by
    apply notin_intercalate _ _ _ hnls
    intro g hg hmem
    obtain ⟨c, hc, rfl⟩ := List.mem_map.mp hg
    exact hnlc ((charNumeral_subst b hnd h2 h65 c).2.2 '\n' hmem)
  rw [CharsetTranslatorBuilder.decode,
    emt_decode_encode ⟨b.start_seq, b.end_seq⟩ _ hnl, exBind_ok]
  have hsplit : pySplit b.separator
      (List.intercalate b.separator (msg.map (charGroup b))) =
      .ok (msg.map (charGroup b)) := by
    rw [hsep]
    apply pySplit_intercalate
    · intro h
      exact hmsg (List.map_eq_nil.mp h)
    · intro g hg hscg
      obtain ⟨c, hc, rfl⟩ := List.mem_map.mp hg
      exact hsc ((charNumeral_subst b hnd h2 h65 c).2.2 sc hscg)
  rw [hsplit, exBind_ok]
  have hsubstdec : mapME (fun g => mapME b.subst.decode g) (msg.map (charGroup b)) =
      .ok (msg.map (charNumeral b)) := by
    rw [mapME_map]
    exact mapME_congr_ok _ _ msg (fun c _ => (charNumeral_subst b hnd h2 h65 c).2.1)
  rw [hsubstdec, exBind_ok]
  have hbndec : mapME (fun numeral => b.baseN.decode numeral) (msg.map (charNumeral b)) =
      .ok (msg.map (fun c => ((c.toNat : Nat) : Int))) := by
    rw [mapME_map]
    exact mapME_congr_ok _ _ msg (fun c _ => baseN_decode_charNumeral b h2 h65 c)
  rw [hbndec, exBind_ok]
  rw [mapME_map]
  have : mapME (fun c => UnicodeCharacterTranslator.decode ((c.toNat : Nat) : Int)) msg =
      .ok (msg.map id) :=
    mapME_congr_ok _ _ msg (fun c hc => ucDecode_toNat c (hcode c hc))
  rw [List.map_id] at this
  exact this

/-! ### Framing decode specification lemmas -/

theorem matchEnd_pred_iff (t : EmbeddedMessageTranslator) (s : List Char) (i k : Nat) :
    (decide (i + t.start_seq.length + t.end_seq.length ≤ k) &&
      occAtB t.end_seq s (k - t.end_seq.length) &&
      dotGapB ((s.drop (i + t.start_seq.length)).take
        (k - t.end_seq.length - (i + t.start_seq.length)))) = true ↔
    (i + t.start_seq.length + t.end_seq.length ≤ k ∧
      occAtB t.end_seq s (k - t.end_seq.length) = true ∧
      dotGapB ((s.drop (i + t.start_seq.length)).take
        (k - t.end_seq.length - (i + t.start_seq.length))) = true) := by
  rw [Bool.and_eq_true, Bool.and_eq_true, decide_eq_true_eq, and_assoc]

theorem matchEnd_some_iff (t : EmbeddedMessageTranslator) (s : List Char) (i j : Nat) :
    t.matchEnd s i = some j ↔
      (i + t.start_seq.length + t.end_seq.length ≤ j ∧ j ≤ s.length ∧
        occAtB t.end_seq s (j - t.end_seq.length) = true ∧
        dotGapB ((s.drop (i + t.start_seq.length)).take
          (j - t.end_seq.length - (i + t.start_seq.length))) = true ∧
        ∀ k, j < k → k ≤ s.length →
          ¬(i + t.start_seq.length + t.end_seq.length ≤ k ∧
            occAtB t.end_seq s (k - t.end_seq.length) = true ∧
            dotGapB ((s.drop (i + t.start_seq.length)).take
              (k - t.end_seq.length - (i + t.start_seq.length))) = true)) := by
  rw [EmbeddedMessageTranslator.matchEnd, findLastIdx_some_iff]
  constructor
  · rintro ⟨h1, h2, h3⟩
    obtain ⟨ha, hb, hc⟩ := (matchEnd_pred_iff t s i j).mp h2
    refine ⟨ha, h1, hb, hc, fun k hk1 hk2 => ?_⟩
    have hfalse := h3 k hk1 hk2
    rw [Bool.eq_false_iff] at hfalse
    exact fun hk3 => hfalse ((matchEnd_pred_iff t s i k).mpr hk3)
  · rintro ⟨h1, h2, h3, h4, h5⟩
    refine ⟨h2, (matchEnd_pred_iff t s i j).mpr ⟨h1, h3, h4⟩, fun k hk1 hk2 => ?_⟩
    rw [Bool.eq_false_iff]
    intro hpk
    exact (h5 k hk1 hk2) ((matchEnd_pred_iff t s i k).mp hpk)

theorem matchEnd_isSome_iff (t : EmbeddedMessageTranslator) (s : List Char) (i : Nat) :
    (t.matchEnd s i).isSome = true ↔
      ∃ j, i + t.start_seq.length + t.end_seq.length ≤ j ∧ j ≤ s.length ∧
        occAtB t.end_seq s (j - t.end_seq.length) = true ∧
        dotGapB ((s.drop (i + t.start_seq.length)).take
          (j - t.end_seq.length - (i + t.start_seq.length))) = true := by
  constructor
  · intro h
    obtain ⟨j, hj⟩ := Option.isSome_iff_exists.mp h
    obtain ⟨h1, h2, h3, h4, -⟩ := (matchEnd_some_iff t s i j).mp hj
    exact ⟨j, h1, h2, h3, h4⟩
  · intro ⟨j, h1, h2, h3, h4⟩
    cases hme : t.matchEnd s i with
    | some j' => rfl
    | none =>
      exfalso
      rw [EmbeddedMessageTranslator.matchEnd, findLastIdx_none_iff] at hme
      have hfalse := hme j h2
      rw [Bool.eq_false_iff] at hfalse
      exact hfalse ((matchEnd_pred_iff t s i j).mpr ⟨h1, h3, h4⟩)


theorem findStart_some_iff (t : EmbeddedMessageTranslator) (s : List Char) (i : Nat) :
    t.findStart s = some i ↔
      (i ≤ s.length ∧
        (occAtB t.start_seq s i && (t.matchEnd s i).isSome) = true ∧
        ∀ k, k < i → (occAtB t.start_seq s k && (t.matchEnd s k).isSome) = false) := by
  rw [EmbeddedMessageTranslator.findStart, findFirstIdx_some_iff]
  constructor
  · rintro ⟨-, h2, h3, h4⟩
    exact ⟨by omega, h3, fun k hk => h4 k (Nat.zero_le k) hk⟩
  · rintro ⟨h1, h2, h3⟩
    exact ⟨Nat.zero_le i, by omega, h2, fun k _ hk => h3 k hk⟩

theorem decodeCandidate_of_matchAt (t : EmbeddedMessageTranslator) (s : List Char)
    (i j : Nat) (h : t.MatchAt s i j) :
    t.decodeCandidate ((s.drop i).take (j - i)) =
      .ok ((s.drop (i + t.start_seq.length)).take
        (j - i - t.start_seq.length - t.end_seq.length)) := by
  obtain ⟨hi, hoccS, hij, hj, hoccE, -⟩ := h
  rw [occAtB_iff] at hoccS hoccE
  set st := t.start_seq with hst
  set e := t.end_seq with he
  set cand : List Char := (s.drop i).take (j - i) with hcand
  have hslen : (s.drop i).length = s.length - i := List.length_drop i s
  have hclen : cand.length = j - i := by
    rw [hcand, List.length_take, hslen]
    omega
  have htakeS : cand.take st.length = st := by
    rw [hcand, List.take_take, Nat.min_eq_left (by omega)]
    exact hoccS
  have hdropE : cand.drop (j - i - e.length) = e := by
    rw [hcand, List.drop_take]
    have h1 : j - i - (j - i - e.length) = e.length := by omega
    have h2 : (s.drop i).drop (j - i - e.length) = s.drop (j - e.length) := by
      rw [List.drop_drop]
      congr 1
      omega
    rw [h1, h2]
    exact hoccE
  have hpre : st.isPrefixOf cand = true := by
    rw [List.isPrefixOf_iff_prefix]
    have hsplit : cand.take st.length ++ cand.drop st.length = cand :=
      List.take_append_drop _ _
    rw [htakeS] at hsplit
    exact ⟨cand.drop st.length, hsplit⟩
  have hsuf : e.isSuffixOf cand = true := by
    rw [List.isSuffixOf_iff_suffix]
    have hsplit : cand.take (j - i - e.length) ++ cand.drop (j - i - e.length) = cand :=
      List.take_append_drop _ _
    rw [hdropE] at hsplit
    exact ⟨cand.take (j - i - e.length), hsplit⟩
  rw [EmbeddedMessageTranslator.decodeCandidate, ← hst, ← he]
  rw [if_neg (by simp [hpre]), if_neg (by simp [hsuf])]
  congr 1
  rw [hcand, List.drop_take, List.drop_drop, List.take_take, hclen]
  congr 1
  omega

/-! ### Chain builder lemmas -/

theorem exBind_assoc (r : Except TransError α) (f : α → Except TransError β)
    (g : β → Except TransError γ) :
    exBind (exBind r f) g = exBind r (fun y => exBind (f y) g) := by
  cases r <;> rfl

theorem foldl_chain_encode (rest : List (PTranslator α)) :
    ∀ (T0 : PTranslator α) (x : α),
      (rest.foldl (fun T t => ChainedTranslator T t) T0).encode x =
        rest.foldl (fun r t => exBind r t.encode) (T0.encode x) := by
  induction rest with
  | nil => intro T0 x; rfl
  | cons t rest ih =>
    intro T0 x
    rw [List.foldl_cons, ih (ChainedTranslator T0 t) x, List.foldl_cons]
    rfl

theorem foldl_chain_decode (rest : List (PTranslator α)) :
    ∀ (T0 : PTranslator α) (x : α),
      (rest.foldl (fun T t => ChainedTranslator T t) T0).decode x =
        exBind (rest.reverse.foldl (fun r t => exBind r t.decode) (.ok x)) T0.decode := by
  induction rest with
  | nil => intro T0 x; rfl
  | cons t rest ih =>
    intro T0 x
    rw [List.foldl_cons, ih (ChainedTranslator T0 t) x]
    rw [List.reverse_cons, List.foldl_append, List.foldl_cons, List.foldl_nil]
    rw [exBind_assoc]
    rfl

theorem char_toNat_ofNat_le (n : Nat) (h : n ≤ 255) : (Char.ofNat n).toNat = n := by
  have hv : n.isValidChar := Or.inl (by omega)
  rw [Char.ofNat, dif_pos hv]
  simp [Char.ofNatAux, Char.toNat, UInt32.toNat, BitVec.toNat_ofNatLt]

/-! ### Claim theorems -/

/-- C2 counterexample: with the valid configuration `base = 2`,
`digits = "ab"`, the digit at position 0 is `'a'`, but `encode(0)` returns
the literal string `"0"`, not `"a"`. -/
theorem C2_counterexample :
    Base10ToBaseNTranslator.encode ⟨2, "ab".toList, 0⟩ 0 ≠ [("ab".toList).getD 0 ' '] := by
  decide

/-- C2 (amended): for every base-N configuration,
`Base10ToBaseNTranslator.encode 0` returns the one-character literal
string `"0"` (ignoring the configured digit alphabet and the padding);
this coincides with the alphabet's zero-digit exactly when the alphabet's
first symbol is the character `'0'`. -/
theorem C2_encode_zero_literal (t : Base10ToBaseNTranslator) : t.encode 0 = ['0'] := by
  simp [Base10ToBaseNTranslator.encode]

/-- C3 counterexample: with `base = 2`, `digits = "01"`, `padding = 3`,
`encode(-1)` returns `"0-1"`: its length 3 is smaller than
`padding + 1 = 4`, and the minus sign is not the leftmost character
(the padding zero precedes it). -/
theorem C3_counterexample :
    (Base10ToBaseNTranslator.encode ⟨2, "01".toList, 3⟩ (-1)).length < 3 + 1 ∧
    (Base10ToBaseNTranslator.encode ⟨2, "01".toList, 3⟩ (-1)).head? ≠ some '-' := by
  decide

/-- C3 (amended): for every nonzero `n`, `encode(n)` yields a string of
length at least `padding` (the minus sign of a negative input counts
toward that target, so the length bound is `padding`, not `padding + 1`),
left-padded with the alphabet's zero-digit `digits[0]`; the padding digits
come first, then the minus sign for negative inputs, then the magnitude
digits most-significant first.  (`encode 0 = "0"` ignores the padding
entirely, see C2.) -/
theorem C3_padding_structure (t : Base10ToBaseNTranslator) (n : Int) (hn : n ≠ 0) :
    t.padding ≤ (t.encode n).length ∧
    t.encode n =
      List.replicate
        (t.padding - ((t.encodeLoop n.natAbs n.natAbs).length + (if n < 0 then 1 else 0)))
        (t.digits.getD 0 ' ') ++
      (if n < 0 then ['-'] else []) ++
      (t.encodeLoop n.natAbs n.natAbs).reverse := by
  simp only [Base10ToBaseNTranslator.encode, if_neg hn]
  by_cases hneg : n < 0
  · simp only [if_pos hneg]
    constructor
    · simp only [List.length_reverse, List.length_append, List.length_replicate,
        List.length_cons, List.length_nil]
      omega
    · rw [List.reverse_append, List.reverse_replicate, List.reverse_append]
      simp only [List.reverse_cons, List.reverse_nil, List.nil_append,
        List.length_append, List.length_cons, List.length_nil, List.append_assoc]
  · simp only [if_neg hneg]
    constructor
    · simp only [List.length_reverse, List.length_append, List.length_replicate]
      omega
    · rw [List.reverse_append, List.reverse_replicate]
      simp

/-- C3 witness: the amended claim evaluated at `base = 10`,
`digits = "0123456789"`, `padding = 5`, `n = -42`. -/
theorem C3_padding_structure_witness :
    (⟨10, "0123456789".toList, 5⟩ : Base10ToBaseNTranslator).padding ≤
      ((⟨10, "0123456789".toList, 5⟩ : Base10ToBaseNTranslator).encode (-42)).length ∧
    (⟨10, "0123456789".toList, 5⟩ : Base10ToBaseNTranslator).encode (-42) =
      List.replicate
        ((⟨10, "0123456789".toList, 5⟩ : Base10ToBaseNTranslator).padding -
          (((⟨10, "0123456789".toList, 5⟩ : Base10ToBaseNTranslator).encodeLoop
              (Int.natAbs (-42)) (Int.natAbs (-42))).length +
            (if (-42 : Int) < 0 then 1 else 0)))
        ((⟨10, "0123456789".toList, 5⟩ : Base10ToBaseNTranslator).digits.getD 0 ' ') ++
      (if (-42 : Int) < 0 then ['-'] else []) ++
      ((⟨10, "0123456789".toList, 5⟩ : Base10ToBaseNTranslator).encodeLoop
          (Int.natAbs (-42)) (Int.natAbs (-42))).reverse :=
  C3_padding_structure ⟨10, "0123456789".toList, 5⟩ (-42) (by decide)

/-- C4 counterexample: for a target alphabet of size 66 the canonical
digit alphabet is NOT a sequence of unique symbols: the extension appends
`chr(65) = 'A'`, which already occurs among the ASCII letters. -/
theorem C4_counterexample : ¬ (canonicalDigits 66).Nodup := by decide

/-- C4 (amended): for every unique target alphabet of size at most 65,
the canonical digit alphabet derived by `CharsetTranslatorBuilder.build`
(digits 0-9, then ASCII letters, then successive code points) is an
ordered sequence of unique symbols of length at least the target
alphabet's length, and the substitution mapping pairing canonical digit
`i` with target symbol `i` is a bijection (the forward and inverse
lookups are mutually inverse on all pairs).  From size 66 upward the
canonical alphabet repeats symbols and the mapping is no longer a
bijection. -/
theorem C4_canonical_alphabet_bijection (b : CharsetTranslatorBuilder)
    (hnd : b.charset.Nodup) (h65 : b.charset.length ≤ 65) :
    b.charset.length ≤ (canonicalDigits b.charset.length).length ∧
    (canonicalDigits b.charset.length).Nodup ∧
    ∀ i, i < b.charset.length →
      b.subst.encode ((canonicalDigits b.charset.length).getD i ' ') =
        .ok (b.charset.getD i ' ') ∧
      b.subst.decode (b.charset.getD i ' ') =
        .ok ((canonicalDigits b.charset.length).getD i ' ') :=
  ⟨canonicalDigits_length _, canonicalDigits_nodup h65,
    fun i hi => ⟨subst_encode_val b h65 i hi, subst_decode_val b hnd h65 i hi⟩⟩

/-- C4 witness: the amended claim evaluated at the target alphabet `"AB"`,
projected to the substitution of digit 1. -/
theorem C4_canonical_alphabet_bijection_witness :
    ("AB".toList).length ≤ (canonicalDigits ("AB".toList).length).length ∧
    (canonicalDigits ("AB".toList).length).Nodup ∧
    (CharsetTranslatorBuilder.subst ⟨"AB".toList, "-".toList, "<<".toList, ">>".toList⟩).encode
        ((canonicalDigits ("AB".toList).length).getD 1 ' ') = .ok (("AB".toList).getD 1 ' ') := by
  have h := C4_canonical_alphabet_bijection
    ⟨"AB".toList, "-".toList, "<<".toList, ">>".toList⟩ (by decide) (by decide)
  exact ⟨h.1, h.2.1, (h.2.2 1 (by decide)).1⟩

/-- C5 counterexample: with the valid configuration `base = 2`,
`digits = "ab"` (unique symbols, length at least the base), the round
trip already fails at `n = 0`: `encode(0) = "0"` and `decode("0")` raises
an InvalidDigit error because `'0'` is not in the alphabet. -/
theorem C5_counterexample :
    Base10ToBaseNTranslator.decode ⟨2, "ab".toList, 0⟩
      (Base10ToBaseNTranslator.encode ⟨2, "ab".toList, 0⟩ 0) ≠ .ok 0 := by
  decide

/-- C5 (amended): for every configuration with `base >= 2`, a duplicate-free
digit alphabet of length at least the base whose first digit is the
character `'0'` and which does not contain `'-'`, and every integer `n`
that is non-negative or whose encoding needs no left padding
(`padding <= magnitude digit count + 1`, e.g. `padding = 0`),
`decode(encode(n)) = n`; for negative such `n` the encoded string carries
a leading minus sign.  (For negative `n` with larger padding the padding
digits land left of the minus sign and decode rejects the string, and for
alphabets whose zero-digit is not `'0'` the round trip fails at 0 —
see the counterexample and C3.) -/
theorem C5_roundtrip_amended (t : Base10ToBaseNTranslator) (hb : 2 ≤ t.base)
    (hlen : t.base ≤ t.digits.length) (hnd : t.digits.Nodup)
    (h0 : t.digits.getD 0 ' ' = '0') (hminus : '-' ∉ t.digits) (n : Int)
    (hn : 0 ≤ n ∨ t.padding ≤ (t.encodeLoop n.natAbs n.natAbs).length + 1) :
    t.decode (t.encode n) = .ok n ∧ (n < 0 → (t.encode n).head? = some '-') := by
  rcases le_or_lt 0 n with hpos | hneg
  · constructor
    · have h := decode_encode_nonneg t hb hlen hnd h0 hminus n.toNat
      rwa [Int.toNat_of_nonneg hpos] at h
    · intro h; omega
  · have hpad : t.padding ≤ (Nat.digits t.base n.natAbs).length + 1 := by
      rcases hn with h | h
      · omega
      · rwa [encodeLoop_eq_digits t hb _ _ (le_refl _), List.length_map] at h
    have h := decode_encode_neg t hb hlen hnd n hneg hpad
    exact ⟨h.1, fun _ => h.2⟩

/-- C5 witness: the amended claim evaluated at `base = 10`,
`digits = "0123456789"`, `padding = 0`, `n = -7`. -/
theorem C5_roundtrip_amended_witness :
    (⟨10, "0123456789".toList, 0⟩ : Base10ToBaseNTranslator).decode
      ((⟨10, "0123456789".toList, 0⟩ : Base10ToBaseNTranslator).encode (-7)) = .ok (-7) ∧
    ((-7 : Int) < 0 →
      ((⟨10, "0123456789".toList, 0⟩ : Base10ToBaseNTranslator).encode (-7)).head? =
        some '-') :=
  C5_roundtrip_amended ⟨10, "0123456789".toList, 0⟩ (by decide) (by decide) (by decide)
    (by decide) (by decide) (-7) (Or.inr (by decide))

/-- C9: `UnicodeCharacterTranslator.encode` fails with an InvalidInput
error naming the offending value for every input that is not exactly one
character and otherwise returns the character's code point;
`UnicodeCharacterTranslator.decode` fails with an OutOfRange error for
every value outside `[0, 255]` and otherwise returns the character with
that code point. -/
theorem C9_unicode_translator_spec (s : List Char) (n : Int) :
    (s.length ≠ 1 →
      UnicodeCharacterTranslator.encode s = .error (.invalidInput (String.mk s))) ∧
    (∀ c, s = [c] → UnicodeCharacterTranslator.encode s = .ok ((c.toNat : Nat) : Int)) ∧
    (n < 0 ∨ 255 < n → UnicodeCharacterTranslator.decode n = .error (.outOfRange n)) ∧
    (0 ≤ n → n ≤ 255 →
      UnicodeCharacterTranslator.decode n = .ok (Char.ofNat n.toNat) ∧
      ((Char.ofNat n.toNat).toNat : Int) = n) := by
  refine ⟨?_, ?_, ?_, ?_⟩
  · intro h
    match s with
    | [] => rfl
    | [c] => exact absurd rfl h
    | c1 :: c2 :: rest => rfl
  · intro c hc
    subst hc
    rfl
  · intro h
    rw [UnicodeCharacterTranslator.decode, if_neg (by omega)]
  · intro h1 h2
    refine ⟨by rw [UnicodeCharacterTranslator.decode, if_pos ⟨h1, h2⟩], ?_⟩
    rw [char_toNat_ofNat_le n.toNat (by omega)]
    omega

/-- C9 witness: the multi-character string `"ab"` is rejected with an
InvalidInput error naming it, `300` is rejected with an OutOfRange error,
`decode 97 = 'a'`, and `encode "a" = 97`. -/
theorem C9_unicode_translator_spec_witness :
    UnicodeCharacterTranslator.encode "ab".toList = .error (.invalidInput "ab") ∧
    UnicodeCharacterTranslator.decode 300 = .error (.outOfRange 300) ∧
    UnicodeCharacterTranslator.decode 97 = .ok (Char.ofNat (97 : Int).toNat) ∧
    UnicodeCharacterTranslator.encode "a".toList = .ok (('a'.toNat : Nat) : Int) := by
  refine ⟨(C9_unicode_translator_spec "ab".toList 300).1 (by decide),
    (C9_unicode_translator_spec "ab".toList 300).2.2.1 (Or.inr (by decide)),
    ((C9_unicode_translator_spec "ab".toList 97).2.2.2 (by decide) (by decide)).1,
    (C9_unicode_translator_spec "a".toList 97).2.1 'a' rfl⟩

/-- C10: `Base10ToBaseNTranslator.decode` requires a non-empty numeral:
on the empty string it fails through the unguarded `num[0]` index access
(an IndexError, not one of the specified error kinds), and the full
pipeline decode of a frame whose payload yields an empty digit group
(carrier `"<<>>"` with the scenario configuration) fails the same way. -/
theorem C10_decode_empty_numeral :
    (∀ t : Base10ToBaseNTranslator, t.decode [] = .error .indexError) ∧
    CharsetTranslatorBuilder.decode ⟨"AB".toList, "-".toList, "<<".toList, ">>".toList⟩
      "<<>>".toList = .error .indexError :=
  ⟨fun _ => rfl, by decide⟩

/-- C1 counterexample: with target alphabet `"AB"` (unique symbols) and
separator `"A"` — a symbol of the alphabet — the round trip fails on the
valid one-character message `"a"`: decode splits the single symbol group
at every `'A'`, producing empty digit groups whose base-N decode raises
IndexError. -/
theorem C1_counterexample :
    exBind (CharsetTranslatorBuilder.encode
        ⟨"AB".toList, "A".toList, "<<".toList, ">>".toList⟩ "a".toList)
      (CharsetTranslatorBuilder.decode
        ⟨"AB".toList, "A".toList, "<<".toList, ">>".toList⟩) ≠ .ok "a".toList := by
  decide

/-- C1 (amended): for every non-empty message whose characters have code
points at most 255, and every configuration whose target alphabet is a
duplicate-free sequence of 2 to 65 symbols not containing a newline,
whose separator is non-empty, newline-free and has a first character
outside the target alphabet, and whose start/end markers are free of
regex metacharacters (the source interpolates them into the pattern
unescaped, and the pattern's `.*` cannot cross a newline), the composite
translator produced by `CharsetTranslatorBuilder.build` satisfies
`decode(encode(message)) = message`. -/
theorem C1_roundtrip_amended (b : CharsetTranslatorBuilder) (msg : List Char)
    (hmsg : msg ≠ []) (hcode : ∀ c ∈ msg, c.toNat ≤ 255)
    (hnd : b.charset.Nodup) (h2 : 2 ≤ b.charset.length) (h65 : b.charset.length ≤ 65)
    (sc : Char) (scs : List Char) (hsep : b.separator = sc :: scs) (hsc : sc ∉ b.charset)
    (hnlc : '\n' ∉ b.charset) (hnls : '\n' ∉ b.separator)
    (_hst : regexSafe b.start_seq) (_he : regexSafe b.end_seq) :
    exBind (b.encode msg) b.decode = .ok msg :=
  csb_pipeline_roundtrip b msg hmsg hcode hnd h2 h65 sc scs hsep hsc hnlc hnls

/-- C1 witness: the amended claim evaluated at the scenario configuration
(target alphabet `"AB"`, separator `"-"`, markers `"<<"`/`">>"`) and the
message `"a"`. -/
theorem C1_roundtrip_amended_witness :
    exBind (CharsetTranslatorBuilder.encode
        ⟨"AB".toList, "-".toList, "<<".toList, ">>".toList⟩ "a".toList)
      (CharsetTranslatorBuilder.decode
        ⟨"AB".toList, "-".toList, "<<".toList, ">>".toList⟩) = .ok "a".toList :=
  C1_roundtrip_amended ⟨"AB".toList, "-".toList, "<<".toList, ">>".toList⟩ "a".toList
    (by decide) (by decide) (by decide) (by decide) (by decide) '-' [] rfl (by decide)
    (by decide) (by decide) (by decide) (by decide)

/-- C6 counterexample: the claim's "fails with NotFound iff no
start...end span exists" is false of the program.  On the carrier
`"<<a\nb>>"` a literal `start...end` span exists (the carrier itself is
`"<<" ++ "a\nb" ++ ">>"`), but the compiled pattern `<<.*>>` has no
match — Python's `.` does not match a newline — so decode raises
ValueError("No message found!"). -/
theorem C6_counterexample :
    EmbeddedMessageTranslator.decode ⟨"<<".toList, ">>".toList⟩ "<<a\nb>>".toList =
      .error .notFound ∧
    "<<a\nb>>".toList = "<<".toList ++ "a\nb".toList ++ ">>".toList := by
  exact ⟨by decide, by decide⟩

/-- C6 (amended): for markers free of regex metacharacters,
`EmbeddedMessageTranslator.decode` scans the carrier for the first
position where a `start...end` span with a newline-free gap begins
(Python's `.` does not match a newline, so the regex gap cannot cross
one), extends it greedily to the last end marker reachable over a
newline-free gap, returns that span with the markers stripped, and
fails — always and only with a NotFound error — exactly when no
`start...end` span with a newline-free gap exists. -/
theorem C6_frame_decode_spec (t : EmbeddedMessageTranslator) (s : List Char)
    (_hst : regexSafe t.start_seq) (_he : regexSafe t.end_seq) :
    (t.decode s = .error .notFound ↔ ¬∃ i j, t.MatchAt s i j) ∧
    (∀ e, t.decode s = .error e → e = .notFound) ∧
    (∀ r, t.decode s = .ok r →
      ∃ i j, t.MatchAt s i j ∧
        (∀ i', (∃ j', t.MatchAt s i' j') → i ≤ i') ∧
        (∀ j', t.MatchAt s i j' → j' ≤ j) ∧
        r = (s.drop (i + t.start_seq.length)).take
          (j - i - t.start_seq.length - t.end_seq.length)) := by
  cases hfs : t.findStart s with
  | none =>
    have hnospan : ¬∃ i j, t.MatchAt s i j := by
      rw [EmbeddedMessageTranslator.findStart, findFirstIdx_none_iff] at hfs
      rintro ⟨i, j, hi, hoccS, hj1, hj2, hj3, hgap⟩
      have hfalse := hfs i (Nat.zero_le i) (by omega)
      rw [Bool.and_eq_false_iff] at hfalse
      rcases hfalse with h | h
      · rw [hoccS] at h; cases h
      · have : (t.matchEnd s i).isSome = true :=
          (matchEnd_isSome_iff t s i).mpr ⟨j, hj1, hj2, hj3, hgap⟩
        rw [this] at h; cases h
    have hdec : t.decode s = .error .notFound := by
      rw [EmbeddedMessageTranslator.decode, hfs]
    refine ⟨⟨fun _ => hnospan, fun _ => hdec⟩, ?_, ?_⟩
    · intro e he
      rw [hdec] at he
      injection he with h
      exact h.symm
    · intro r hr
      rw [hdec] at hr
      cases hr
  | some i =>
    obtain ⟨hi, hpred, hmin⟩ := (findStart_some_iff t s i).mp hfs
    rw [Bool.and_eq_true] at hpred
    obtain ⟨hoccS, hms⟩ := hpred
    obtain ⟨j, hj⟩ := Option.isSome_iff_exists.mp hms
    obtain ⟨hj1, hj2, hj3, hgap, hjmax⟩ := (matchEnd_some_iff t s i j).mp hj
    have hmatch : t.MatchAt s i j := ⟨hi, hoccS, hj1, hj2, hj3, hgap⟩
    have hdec : t.decode s = .ok ((s.drop (i + t.start_seq.length)).take
        (j - i - t.start_seq.length - t.end_seq.length)) := by
      rw [EmbeddedMessageTranslator.decode, hfs]
      dsimp only
      rw [hj]
      dsimp only
      exact decodeCandidate_of_matchAt t s i j hmatch
    refine ⟨⟨fun h => ?_, fun h => absurd ⟨i, j, hmatch⟩ h⟩, ?_, ?_⟩
    · rw [hdec] at h; cases h
    · intro e he
      rw [hdec] at he
      cases he
    · intro r hr
      rw [hdec] at hr
      injection hr with hr
      refine ⟨i, j, hmatch, ?_, ?_, hr.symm⟩
      · rintro i' ⟨j', hi', hoccS', hj1', hj2', hj3', hgap'⟩
        by_contra hlt
        have hfalse := hmin i' (by omega)
        rw [Bool.and_eq_false_iff] at hfalse
        rcases hfalse with h | h
        · rw [hoccS'] at h; cases h
        · have : (t.matchEnd s i').isSome = true :=
            (matchEnd_isSome_iff t s i').mpr ⟨j', hj1', hj2', hj3', hgap'⟩
          rw [this] at h; cases h
      · rintro j' ⟨-, -, hj1', hj2', hj3', hgap'⟩
        by_contra hlt
        exact hjmax j' (by omega) hj2' ⟨hj1', hj3', hgap'⟩

/-- C6 witness: decoding the carrier `"ab<<hi>>cd"` with markers
`"<<"`/`">>"` succeeds, and the claim theorem exhibits the leftmost,
greedily extended span it came from. -/
theorem C6_frame_decode_spec_witness :
    ∃ i j, (⟨"<<".toList, ">>".toList⟩ : EmbeddedMessageTranslator).MatchAt
        "ab<<hi>>cd".toList i j ∧
      (∀ i', (∃ j', (⟨"<<".toList, ">>".toList⟩ : EmbeddedMessageTranslator).MatchAt
          "ab<<hi>>cd".toList i' j') → i ≤ i') ∧
      (∀ j', (⟨"<<".toList, ">>".toList⟩ : EmbeddedMessageTranslator).MatchAt
          "ab<<hi>>cd".toList i j' → j' ≤ j) ∧
      "hi".toList = ("ab<<hi>>cd".toList.drop (i + ("<<".toList).length)).take
        (j - i - ("<<".toList).length - (">>".toList).length) :=
  (C6_frame_decode_spec ⟨"<<".toList, ">>".toList⟩ "ab<<hi>>cd".toList
    (by decide) (by decide)).2.2 "hi".toList (by decide)

/-- C7: `ChainTranslatorBuilder.build` fails with a BuildError on an empty
list, returns the sole translator unchanged on a singleton, and on two or
more translators returns a left-folded binary-chained composite whose
`encode` applies all the encodes in order and whose `decode` applies all
the decodes in reverse order. -/
theorem C7_chain_builder_spec (α : Type) :
    ChainTranslatorBuilder.build ([] : List (PTranslator α)) = .error .buildError ∧
    (∀ t : PTranslator α, ChainTranslatorBuilder.build [t] = .ok t) ∧
    (∀ ts : List (PTranslator α), 2 ≤ ts.length →
      ∃ T, ChainTranslatorBuilder.build ts = .ok T ∧
        (∀ x, T.encode x = runEncodes ts x) ∧
        (∀ x, T.decode x = runDecodes ts x)) := by
  refine ⟨rfl, fun t => rfl, ?_⟩
  intro ts hts
  match ts with
  | [] => simp at hts
  | [t] => simp at hts
  | t1 :: t2 :: rest =>
    refine ⟨rest.foldl (fun T t => ChainedTranslator T t) (ChainedTranslator t1 t2),
      rfl, ?_, ?_⟩
    · intro x
      rw [foldl_chain_encode rest (ChainedTranslator t1 t2) x]
      rw [runEncodes, List.foldl_cons, List.foldl_cons]
      rfl
    · intro x
      rw [foldl_chain_decode rest (ChainedTranslator t1 t2) x]
      rw [runDecodes]
      simp only [List.reverse_cons, List.append_assoc, List.foldl_append,
        List.foldl_cons, List.foldl_nil]
      rw [exBind_assoc]
      rfl

/-- C7 witness: building the two-stage chain of the successor and
predecessor translators over natural numbers, with its composite
encode/decode equal to the sequential folds. -/
theorem C7_chain_builder_spec_witness :
    ∃ T, ChainTranslatorBuilder.build
        [(⟨fun n => .ok (n + 1), fun n => .ok (n - 1)⟩ : PTranslator Nat),
          ⟨fun n => .ok (n * 2), fun n => .ok (n / 2)⟩] = .ok T ∧
      (∀ x, T.encode x = runEncodes
        [(⟨fun n => .ok (n + 1), fun n => .ok (n - 1)⟩ : PTranslator Nat),
          ⟨fun n => .ok (n * 2), fun n => .ok (n / 2)⟩] x) ∧
      (∀ x, T.decode x = runDecodes
        [(⟨fun n => .ok (n + 1), fun n => .ok (n - 1)⟩ : PTranslator Nat),
          ⟨fun n => .ok (n * 2), fun n => .ok (n / 2)⟩] x) :=
  (C7_chain_builder_spec Nat).2.2
    [⟨fun n => .ok (n + 1), fun n => .ok (n - 1)⟩,
      ⟨fun n => .ok (n * 2), fun n => .ok (n / 2)⟩] (by simp)

/-- C8: for every start marker, end marker and payload,
`EmbeddedMessageTranslator.encode` returns exactly
`start ++ payload ++ end` verbatim — unconditionally, with no escaping of
markers occurring inside the payload — and `decodeCandidate` recovers the
payload from that framed string whenever the payload does not contain the
end marker as a substring ending before the payload's own end (the
stripping is purely positional, so the proof does not even need that side
condition; an end marker occurring as a suffix of the payload is fine). -/
theorem C8_frame_encode_candidate (t : EmbeddedMessageTranslator) (p : List Char) :
    t.encode p = t.start_seq ++ p ++ t.end_seq ∧
    ((∀ k < p.length, k + t.end_seq.length < p.length → occAtB t.end_seq p k = false) →
      t.decodeCandidate (t.encode p) = .ok p) := by
  refine ⟨rfl, fun _ => ?_⟩
  rw [EmbeddedMessageTranslator.encode, EmbeddedMessageTranslator.decodeCandidate]
  have hpre : t.start_seq.isPrefixOf (t.start_seq ++ p ++ t.end_seq) = true := by
    rw [List.isPrefixOf_iff_prefix, List.append_assoc]
    exact ⟨p ++ t.end_seq, rfl⟩
  have hsuf : t.end_seq.isSuffixOf (t.start_seq ++ p ++ t.end_seq) = true := by
    rw [List.isSuffixOf_iff_suffix]
    exact ⟨t.start_seq ++ p, rfl⟩
  rw [if_neg (by simp only [hpre]; decide), if_neg (by simp only [hsuf]; decide)]
  have h1 : (t.start_seq ++ p ++ t.end_seq).drop t.start_seq.length = p ++ t.end_seq := by
    rw [List.append_assoc, List.drop_left]
  have h2 : (t.start_seq ++ p ++ t.end_seq).length - t.end_seq.length -
      t.start_seq.length = p.length := by
    simp only [List.length_append]
    omega
  rw [h1, h2, List.take_left]

/-- C8 witness: framing the payload `"x>>"` — which carries the end
marker as its own suffix — with markers `"<<"`/`">>"`: encode is verbatim
and `decodeCandidate` recovers the payload. -/
theorem C8_frame_encode_candidate_witness :
    EmbeddedMessageTranslator.encode ⟨"<<".toList, ">>".toList⟩ "x>>".toList =
      "<<".toList ++ "x>>".toList ++ ">>".toList ∧
    EmbeddedMessageTranslator.decodeCandidate ⟨"<<".toList, ">>".toList⟩
      (EmbeddedMessageTranslator.encode ⟨"<<".toList, ">>".toList⟩ "x>>".toList) =
        .ok "x>>".toList :=
  ⟨(C8_frame_encode_candidate ⟨"<<".toList, ">>".toList⟩ "x>>".toList).1,
    (C8_frame_encode_candidate ⟨"<<".toList, ">>".toList⟩ "x>>".toList).2 (by decide)⟩

end Translator
